import Mathlib

/-!
Verification development for the locale-loading core of the leptos_i18n macro crate
(`load_locales/key.rs`, `load_locales/mod.rs`). Pure functions of the source are
embedded as Lean functions; the fallible surface is embedded with `Option` and
`Except`. Definitions marked "Modelled from the spec:" embed parts of the engine
whose source file is not available here (the foreign-key resolver in
`parsed_value.rs` and the merge pass in `locale.rs`); they follow the words of the
specification document.
-/

/- ## Keys (`load_locales/key.rs`) -/

/-- Rust keywords rejected by `syn::parse_str::<syn::Ident>` (strict and reserved
keywords of the 2018 edition; the default `Parse` impl of `syn::Ident` accepts any
identifier except keywords). -/
def rustKeywords : List String :=
  ["as", "break", "const", "continue", "crate", "dyn", "else", "enum", "extern",
   "false", "fn", "for", "if", "impl", "in", "let", "loop", "match", "mod",
   "move", "mut", "pub", "ref", "return", "self", "Self", "static", "struct",
   "super", "trait", "true", "type", "unsafe", "use", "where", "while", "async",
   "await", "abstract", "become", "box", "do", "final", "macro", "override",
   "priv", "typeof", "unsized", "virtual", "yield", "try"]

/-- First character of a bare Rust identifier (ASCII fragment: letters or an
underscore). -/
def isIdentStart (c : Char) : Bool := c.isAlpha || c == '_'

/-- Continuation character of a bare Rust identifier (ASCII fragment: letters,
digits or an underscore). -/
def isIdentContinue (c : Char) : Bool := c.isAlphanum || c == '_'

/-- Embeds `syn::parse_str::<syn::Ident>` restricted to ASCII, bare (non-raw)
identifiers: nonempty, an identifier start character followed by identifier
continuation characters, not a keyword, and not the lone underscore token. -/
def isValidIdent (s : String) : Bool :=
  match s.data with
  | [] => false
  | c :: cs =>
    isIdentStart c && cs.all isIdentContinue && !(rustKeywords.contains s) && s != "_"

/-- The `Option`-shaped surface of `syn::parse_str::<syn::Ident>(..).ok()`. -/
def parseIdent (s : String) : Option String :=
  if isValidIdent s then some s else none

/-- Embeds `str::replace('-', "_")` for the single-character pattern: a map over
the characters of the string. -/
def replaceHyphens (s : String) : String :=
  ⟨s.data.map (fun c => if c == '-' then '_' else c)⟩

/-- Embeds `str::trim`: drop whitespace characters from both ends of the
string. -/
def trimString (s : String) : String :=
  ⟨((s.data.dropWhile Char.isWhitespace).reverse.dropWhile Char.isWhitespace).reverse⟩

/-- The typed error surface of the engine (`load_locales/error.rs`, as named by
the specification taxonomy); only the variants exercised by the claims are
modelled. -/
inductive Error : Type where
  | InvalidKey : String → Error
  | UndefinedForeignKey : String → Error
  | ForeignKeyCycle : String → Error
  | LocaleKeyTypeMismatch : String → Error
deriving Repr, DecidableEq

/-- `Key` from `key.rs`: the raw (trimmed) name together with the derived
identifier. The identifier is kept as its string representation. -/
structure Key where
  name : String
  ident : String
deriving Repr, DecidableEq

/-- `Key::new` from `key.rs`: trim the input, replace every hyphen by an
underscore, and attempt identifier construction on the candidate. -/
def Key.new (name : String) : Option Key :=
  let name := trimString name
  let identRepr := replaceHyphens name
  (parseIdent identRepr).map (fun ident => ⟨name, ident⟩)

/-- `Key::try_new` from `key.rs`: `Self::new(name).ok_or_else(|| Error::InvalidKey(name.to_string()))`. -/
def Key.try_new (name : String) : Except Error Key :=
  match Key.new name with
  | some k => .ok k
  | none => .error (.InvalidKey name)

/-- `impl PartialEq for Key` from `key.rs`: equality compares `name` only. -/
def Key.beq (k1 k2 : Key) : Bool := k1.name == k2.name

/-- `impl Hash for Key` from `key.rs`: only `name` is fed to the hasher, so for
any hasher of strings the hash of a key is the hash of its name. -/
def Key.hashKey (hasher : String → UInt64) (k : Key) : UInt64 := hasher k.name

/-- C1: `Key::new` trims the input and maps hyphens to underscores to form the
identifier candidate; it succeeds exactly when the candidate is a valid bare
identifier, in which case the key stores the trimmed name and the candidate
identifier. In particular a hyphenated valid raw key succeeds with hyphens mapped
to underscores, a candidate starting with a digit fails, and a candidate still
containing whitespace fails. -/
theorem key_new_spec (s : String) :
    Key.new s =
      (if isValidIdent (replaceHyphens (trimString s))
       then some ⟨trimString s, replaceHyphens (trimString s)⟩
       else none)
    ∧ Key.new " foo-bar " = some ⟨"foo-bar", "foo_bar"⟩
    ∧ Key.new "9abc" = none
    ∧ Key.new "a b" = none := by
  refine ⟨?_, by decide, by decide, by decide⟩
  simp only [Key.new, parseIdent]
  split <;> simp

/-- C2: key equality holds exactly on equal names, equal keys hash equally under
any hasher, two keys independently constructed from the same string are equal,
and the derived identifier field is irrelevant to equality. -/
theorem key_eq_hash_by_name (k1 k2 : Key) :
    (Key.beq k1 k2 = true ↔ k1.name = k2.name)
    ∧ (∀ hasher : String → UInt64,
        Key.beq k1 k2 = true → Key.hashKey hasher k1 = Key.hashKey hasher k2)
    ∧ (∀ s ka kb, Key.new s = some ka → Key.new s = some kb → Key.beq ka kb = true)
    ∧ (∀ n i1 i2, Key.beq ⟨n, i1⟩ ⟨n, i2⟩ = true) := by
  refine ⟨?_, ?_, ?_, ?_⟩
  · simp [Key.beq]
  · intro hasher h
    simp only [Key.beq, beq_iff_eq] at h
    simp [Key.hashKey, h]
  · intro s ka kb ha hb
    rw [ha] at hb
    cases hb
    simp [Key.beq]
  · intro n i1 i2
    simp [Key.beq]

/-- Witness for C2 at two concrete keys sharing a name but differing in the
identifier field. -/
theorem key_eq_hash_by_name_witness :
    Key.beq ⟨"ab", "ab"⟩ ⟨"ab", "cd"⟩ = true
    ∧ Key.hashKey String.hash ⟨"ab", "ab"⟩ = Key.hashKey String.hash ⟨"ab", "cd"⟩ := by
  have h := key_eq_hash_by_name ⟨"ab", "ab"⟩ ⟨"ab", "cd"⟩
  exact ⟨h.1.mpr rfl, h.2.1 String.hash (h.1.mpr rfl)⟩

/-- C7: `Key::try_new` returns `InvalidKey` carrying the original raw string
exactly when `Key::new` fails, and forwards the constructed key when it
succeeds. -/
theorem try_new_spec (s : String) :
    (Key.new s = none → Key.try_new s = .error (.InvalidKey s))
    ∧ (∀ k, Key.new s = some k → Key.try_new s = .ok k) := by
  constructor
  · intro h
    simp [Key.try_new, h]
  · intro k h
    simp [Key.try_new, h]

/-- Witness for C7: a failing raw string (with padding, showing the error carries
the raw, untrimmed input) and a succeeding one. -/
theorem try_new_spec_witness :
    Key.try_new " 9x " = .error (.InvalidKey " 9x ")
    ∧ Key.try_new "ab" = .ok ⟨"ab", "ab"⟩ := by
  exact ⟨(try_new_spec " 9x ").1 (by decide), (try_new_spec "ab").2 ⟨"ab", "ab"⟩ (by decide)⟩

/- ## Pipeline sequencing (`load_locales/mod.rs`, `load_locales_inner`) -/

/-- The three pipeline stages of `load_locales_inner` that the claims track. -/
inductive PipelineStep : Type where
  | resolveForeignKeysStep : PipelineStep
  | checkLocalesStep : PipelineStep
  | generateStep : PipelineStep
deriving Repr, DecidableEq

/-- Embeds the control flow of `load_locales_inner`: the result of
`ParsedValue::resolve_foreign_keys` and of `Locale::check_locales` are taken as
parameters (their bodies live in other modules); the function threads them with
the `?` operator, in order, and finally generates the output token stream. The
second component records which stages were invoked, in order. -/
def load_locales_inner {α β : Type} (resolveResult : Except Error Unit)
    (checkResult : Except Error β) (generate : β → α) :
    Except Error α × List PipelineStep :=
  match resolveResult with
  | .error e => (.error e, [.resolveForeignKeysStep])
  | .ok _ =>
    match checkResult with
    | .error e => (.error e, [.resolveForeignKeysStep, .checkLocalesStep])
    | .ok keys =>
      (.ok (generate keys),
       [.resolveForeignKeysStep, .checkLocalesStep, .generateStep])

/-- C6: the build pipeline runs strictly in the order resolve, check, generate
(the invocation log is always an initial segment of that sequence), an error of
the resolver aborts before the check stage is invoked and is returned as the
typed failure with no output token stream, and an error of the check stage
aborts before any code generation. -/
theorem load_locales_inner_sequencing {α β : Type} (generate : β → α) :
    (∀ (resolveResult : Except Error Unit) (checkResult : Except Error β),
      ∃ n, 1 ≤ n ∧
        (load_locales_inner resolveResult checkResult generate).2 =
          [PipelineStep.resolveForeignKeysStep, PipelineStep.checkLocalesStep,
           PipelineStep.generateStep].take n)
    ∧ (∀ (e : Error) (checkResult : Except Error β),
        load_locales_inner (.error e) checkResult generate =
          (.error e, [PipelineStep.resolveForeignKeysStep]))
    ∧ (∀ e : Error,
        load_locales_inner (α := α) (.ok ()) (.error e : Except Error β) generate =
          (.error e,
           [PipelineStep.resolveForeignKeysStep, PipelineStep.checkLocalesStep]))
    ∧ (∀ keys : β,
        load_locales_inner (.ok ()) (.ok keys) generate =
          (.ok (generate keys),
           [PipelineStep.resolveForeignKeysStep, PipelineStep.checkLocalesStep,
            PipelineStep.generateStep])) := by
  refine ⟨?_, ?_, ?_, ?_⟩
  · intro resolveResult checkResult
    cases resolveResult with
    | error e => exact ⟨1, by simp [load_locales_inner]⟩
    | ok u =>
      cases checkResult with
      | error e => exact ⟨2, by simp [load_locales_inner]⟩
      | ok keys => exact ⟨3, by simp [load_locales_inner]⟩
  · intro e checkResult
    simp [load_locales_inner]
  · intro e
    simp [load_locales_inner]
  · intro keys
    simp [load_locales_inner]

/- ## The value IR and the foreign-key resolver (modelled from the spec) -/

/-- Plural arm selectors of the plural model: an exact non-negative integer, an
inclusive numeric range, or the catch-all fallback marker. -/
inductive PluralSelector : Type where
  | exact : Nat → PluralSelector
  | range : Nat → Nat → PluralSelector
  | fallback : PluralSelector
deriving Repr, DecidableEq

mutual
/-- Modelled from the spec: the `ParsedValue` IR of `parsed_value.rs` (that
source file is not available here), following the data-model section of the
specification. The `ForeignKey(path, resolved : Option<ParsedValue>)` variant is
split into an unresolved and a resolved constructor; the reference path is
modelled as the key of the referenced top-level entry of a flat locale tree.
Nested maps and plural arms are encoded with bespoke cons-lists so that every
recursion over the IR stays structural. -/
inductive ParsedValue : Type where
  | string : String → ParsedValue
  | var : Key → ParsedValue
  | component : Key → ParsedValue → ParsedValue
  | plural : Key → PluralArms → ParsedValue
  | foreignKeyUnresolved : Key → ParsedValue
  | foreignKeyResolved : Key → ParsedValue → ParsedValue
  | subkeys : Entries → ParsedValue

/-- The ordered selector/value arms of a plural value. -/
inductive PluralArms : Type where
  | nil : PluralArms
  | cons : PluralSelector → ParsedValue → PluralArms → PluralArms

/-- A nested mapping from keys to values. -/
inductive Entries : Type where
  | nil : Entries
  | cons : Key → ParsedValue → Entries → Entries
end

/-- Lookup of a top-level key by name (the hash maps of the source are keyed by
`Key`, whose equality and hash are by `name` only). -/
def lookupValue : List (Key × ParsedValue) → String → Option ParsedValue
  | [], _ => none
  | (k, v) :: rest, n => if k.name == n then some v else lookupValue rest n

mutual
/-- Modelled from the spec: resolution of one value node by
`ParsedValue::resolve_foreign_keys` (`parsed_value.rs`, not available here).
`env` is the fixed tree used for lookups; `allowed` is the set of top-level key
names that may still be entered — a key currently being resolved has been
removed from `allowed`, so meeting it again reports `ForeignKeyCycle`, while a
path absent from the tree reports `UndefinedForeignKey`. A node that is already
resolved is a no-op; on success the resolved value is substituted into the node
as a structural copy. -/
def resolveValue (env : List (Key × ParsedValue)) (allowed : List String) :
    ParsedValue → Except Error ParsedValue
  | .string s => .ok (.string s)
  | .var k => .ok (.var k)
  | .component k body =>
    match resolveValue env allowed body with
    | .error e => .error e
    | .ok b => .ok (.component k b)
  | .plural k arms =>
    match resolveArms env allowed arms with
    | .error e => .error e
    | .ok arms2 => .ok (.plural k arms2)
  | .subkeys es =>
    match resolveEntries env allowed es with
    | .error e => .error e
    | .ok es2 => .ok (.subkeys es2)
  | .foreignKeyResolved path r => .ok (.foreignKeyResolved path r)
  | .foreignKeyUnresolved path =>
    match lookupValue env path.name with
    | none => .error (.UndefinedForeignKey path.name)
    | some target =>
      if h : path.name ∈ allowed then
        match resolveValue env (allowed.erase path.name) target with
        | .error e => .error e
        | .ok r => .ok (.foreignKeyResolved path r)
      else .error (.ForeignKeyCycle path.name)
termination_by v => (allowed.length, sizeOf v)
decreasing_by
  all_goals
    first
      | (simp_wf
         apply Prod.Lex.left
         have h1 := List.length_erase_of_mem h
         have h2 := List.length_pos_of_mem h
         omega)
      | decreasing_tactic

/-- Resolution of every arm of a plural value, in order. -/
def resolveArms (env : List (Key × ParsedValue)) (allowed : List String) :
    PluralArms → Except Error PluralArms
  | .nil => .ok .nil
  | .cons sel v rest =>
    match resolveValue env allowed v with
    | .error e => .error e
    | .ok v2 =>
      match resolveArms env allowed rest with
      | .error e => .error e
      | .ok rest2 => .ok (.cons sel v2 rest2)
termination_by arms => (allowed.length, sizeOf arms)
decreasing_by
  all_goals decreasing_tactic

/-- Resolution of every entry of a nested mapping, in order. -/
def resolveEntries (env : List (Key × ParsedValue)) (allowed : List String) :
    Entries → Except Error Entries
  | .nil => .ok .nil
  | .cons k v rest =>
    match resolveValue env allowed v with
    | .error e => .error e
    | .ok v2 =>
      match resolveEntries env allowed rest with
      | .error e => .error e
      | .ok rest2 => .ok (.cons k v2 rest2)
termination_by es => (allowed.length, sizeOf es)
decreasing_by
  all_goals decreasing_tactic
end

mutual
/-- No unresolved foreign-key node remains at the surface of the value. The
resolver never enters the payload of an already-resolved node, so neither does
this predicate. -/
def noUnresolved : ParsedValue → Bool
  | .string _ => true
  | .var _ => true
  | .component _ body => noUnresolved body
  | .plural _ arms => noUnresolvedArms arms
  | .foreignKeyUnresolved _ => false
  | .foreignKeyResolved _ _ => true
  | .subkeys es => noUnresolvedEntries es

/-- `noUnresolved` over plural arms. -/
def noUnresolvedArms : PluralArms → Bool
  | .nil => true
  | .cons _ v rest => noUnresolved v && noUnresolvedArms rest

/-- `noUnresolved` over nested entries. -/
def noUnresolvedEntries : Entries → Bool
  | .nil => true
  | .cons _ v rest => noUnresolved v && noUnresolvedEntries rest
end

/-- Modelled from the spec: resolution of one top-level entry; the key of the
entry itself counts as currently being resolved, so the allowed set is every
top-level key name except it. -/
def resolveEntry (env : List (Key × ParsedValue)) (kv : Key × ParsedValue) :
    Except Error (Key × ParsedValue) :=
  match resolveValue env ((env.map (fun p => p.1.name)).erase kv.1.name) kv.2 with
  | .error e => .error e
  | .ok v => .ok (kv.1, v)

/-- Resolution of a list of top-level entries, in order, each against the same
fixed lookup tree. -/
def resolveAll (env : List (Key × ParsedValue)) :
    List (Key × ParsedValue) → Except Error (List (Key × ParsedValue))
  | [] => .ok []
  | kv :: rest =>
    match resolveEntry env kv with
    | .error e => .error e
    | .ok kv2 =>
      match resolveAll env rest with
      | .error e => .error e
      | .ok rest2 => .ok (kv2 :: rest2)

/-- Modelled from the spec: `ParsedValue::resolve_foreign_keys`, the global
resolution pass run once before merge — every entry of the tree is resolved (in
place in the source, as a structural copy here), with lookups going through the
input tree. -/
def ParsedValue.resolve_foreign_keys (env : List (Key × ParsedValue)) :
    Except Error (List (Key × ParsedValue)) :=
  resolveAll env env

mutual
/-- A value with no unresolved surface node resolves to itself, whatever the
lookup tree and the allowed set: already-resolved nodes are no-ops. -/
theorem resolveValue_id (env : List (Key × ParsedValue)) (allowed : List String) :
    ∀ v : ParsedValue, noUnresolved v = true → resolveValue env allowed v = .ok v
  | .string s, _ => by simp [resolveValue]
  | .var k, _ => by simp [resolveValue]
  | .component k body, h => by
    have ih := resolveValue_id env allowed body (by simpa [noUnresolved] using h)
    simp [resolveValue, ih]
  | .plural k arms, h => by
    have ih := resolveArms_id env allowed arms (by simpa [noUnresolved] using h)
    simp [resolveValue, ih]
  | .foreignKeyUnresolved p, h => by simp [noUnresolved] at h
  | .foreignKeyResolved p r, _ => by simp [resolveValue]
  | .subkeys es, h => by
    have ih := resolveEntries_id env allowed es (by simpa [noUnresolved] using h)
    simp [resolveValue, ih]

/-- Arms with no unresolved surface node resolve to themselves. -/
theorem resolveArms_id (env : List (Key × ParsedValue)) (allowed : List String) :
    ∀ arms : PluralArms, noUnresolvedArms arms = true →
      resolveArms env allowed arms = .ok arms
  | .nil, _ => by simp [resolveArms]
  | .cons sel v rest, h => by
    have hv : noUnresolved v = true := by
      have := h
      simp [noUnresolvedArms] at this
      exact this.1
    have hrest : noUnresolvedArms rest = true := by
      have := h
      simp [noUnresolvedArms] at this
      exact this.2
    have ih1 := resolveValue_id env allowed v hv
    have ih2 := resolveArms_id env allowed rest hrest
    simp [resolveArms, ih1, ih2]

/-- Entries with no unresolved surface node resolve to themselves. -/
theorem resolveEntries_id (env : List (Key × ParsedValue)) (allowed : List String) :
    ∀ es : Entries, noUnresolvedEntries es = true →
      resolveEntries env allowed es = .ok es
  | .nil, _ => by simp [resolveEntries]
  | .cons k v rest, h => by
    have hv : noUnresolved v = true := by
      have := h
      simp [noUnresolvedEntries] at this
      exact this.1
    have hrest : noUnresolvedEntries rest = true := by
      have := h
      simp [noUnresolvedEntries] at this
      exact this.2
    have ih1 := resolveValue_id env allowed v hv
    have ih2 := resolveEntries_id env allowed rest hrest
    simp [resolveEntries, ih1, ih2]
end

mutual
/-- Successful resolution of a value yields a value with no unresolved surface
node. -/
theorem resolveValue_noUnresolved (env : List (Key × ParsedValue))
    (allowed : List String) :
    ∀ v r : ParsedValue, resolveValue env allowed v = .ok r → noUnresolved r = true
  | .string s, r, h => by
    simp [resolveValue] at h
    simp [← h, noUnresolved]
  | .var k, r, h => by
    simp [resolveValue] at h
    simp [← h, noUnresolved]
  | .component k body, r, h => by
    simp only [resolveValue] at h
    cases hb : resolveValue env allowed body with
    | error e => rw [hb] at h; cases h
    | ok b =>
      rw [hb] at h
      cases h
      have ih := resolveValue_noUnresolved env allowed body b hb
      simp [noUnresolved, ih]
  | .plural k arms, r, h => by
    simp only [resolveValue] at h
    cases ha : resolveArms env allowed arms with
    | error e => rw [ha] at h; cases h
    | ok arms2 =>
      rw [ha] at h
      cases h
      have ih := resolveArms_noUnresolved env allowed arms arms2 ha
      simp [noUnresolved, ih]
  | .foreignKeyUnresolved p, r, h => by
    simp only [resolveValue] at h
    cases hl : lookupValue env p.name with
    | none => rw [hl] at h; cases h
    | some target =>
      rw [hl] at h
      dsimp only at h
      by_cases hm : p.name ∈ allowed
      · rw [dif_pos hm] at h
        cases ht : resolveValue env (allowed.erase p.name) target with
        | error e => rw [ht] at h; cases h
        | ok r2 =>
          rw [ht] at h
          cases h
          simp [noUnresolved]
      · rw [dif_neg hm] at h
        cases h
  | .foreignKeyResolved p r0, r, h => by
    simp [resolveValue] at h
    simp [← h, noUnresolved]
  | .subkeys es, r, h => by
    simp only [resolveValue] at h
    cases he : resolveEntries env allowed es with
    | error e => rw [he] at h; cases h
    | ok es2 =>
      rw [he] at h
      cases h
      have ih := resolveEntries_noUnresolved env allowed es es2 he
      simp [noUnresolved, ih]

/-- Successful resolution of plural arms yields arms with no unresolved surface
node. -/
theorem resolveArms_noUnresolved (env : List (Key × ParsedValue))
    (allowed : List String) :
    ∀ arms arms2 : PluralArms, resolveArms env allowed arms = .ok arms2 →
      noUnresolvedArms arms2 = true
  | .nil, arms2, h => by
    simp [resolveArms] at h
    simp [← h, noUnresolvedArms]
  | .cons sel v rest, arms2, h => by
    simp only [resolveArms] at h
    cases hv : resolveValue env allowed v with
    | error e => rw [hv] at h; cases h
    | ok v2 =>
      rw [hv] at h
      cases hr : resolveArms env allowed rest with
      | error e => rw [hr] at h; cases h
      | ok rest2 =>
        rw [hr] at h
        cases h
        have ih1 := resolveValue_noUnresolved env allowed v v2 hv
        have ih2 := resolveArms_noUnresolved env allowed rest rest2 hr
        simp [noUnresolvedArms, ih1, ih2]

/-- Successful resolution of nested entries yields entries with no unresolved
surface node. -/
theorem resolveEntries_noUnresolved (env : List (Key × ParsedValue))
    (allowed : List String) :
    ∀ es es2 : Entries, resolveEntries env allowed es = .ok es2 →
      noUnresolvedEntries es2 = true
  | .nil, es2, h => by
    simp [resolveEntries] at h
    simp [← h, noUnresolvedEntries]
  | .cons k v rest, es2, h => by
    simp only [resolveEntries] at h
    cases hv : resolveValue env allowed v with
    | error e => rw [hv] at h; cases h
    | ok v2 =>
      rw [hv] at h
      cases hr : resolveEntries env allowed rest with
      | error e => rw [hr] at h; cases h
      | ok rest2 =>
        rw [hr] at h
        cases h
        have ih1 := resolveValue_noUnresolved env allowed v v2 hv
        have ih2 := resolveEntries_noUnresolved env allowed rest rest2 hr
        simp [noUnresolvedEntries, ih1, ih2]
end

/-- Every value of a successfully resolved entry list has no unresolved surface
node. -/
theorem resolveAll_noUnresolved (env : List (Key × ParsedValue)) :
    ∀ l l2, resolveAll env l = .ok l2 → ∀ kv ∈ l2, noUnresolved kv.2 = true := by
  intro l
  induction l with
  | nil =>
    intro l2 h kv hkv
    simp [resolveAll] at h
    subst h
    cases hkv
  | cons kv0 rest ih =>
    intro l2 h kv hkv
    simp only [resolveAll] at h
    cases he : resolveEntry env kv0 with
    | error e => rw [he] at h; cases h
    | ok kv2 =>
      rw [he] at h
      cases hr : resolveAll env rest with
      | error e => rw [hr] at h; cases h
      | ok rest2 =>
        rw [hr] at h
        cases h
        rcases List.mem_cons.mp hkv with h1 | h2
        · subst h1
          simp only [resolveEntry] at he
          cases hv : resolveValue env ((env.map (fun p => p.1.name)).erase kv0.1.name) kv0.2 with
          | error e => rw [hv] at he; cases he
          | ok v2 =>
            rw [hv] at he
            cases he
            exact resolveValue_noUnresolved env _ kv0.2 v2 hv
        · exact ih rest2 hr kv h2

/-- An entry list whose values have no unresolved surface node resolves to
itself, whatever tree the lookups go through. -/
theorem resolveAll_id (env2 : List (Key × ParsedValue)) :
    ∀ l, (∀ kv ∈ l, noUnresolved kv.2 = true) → resolveAll env2 l = .ok l := by
  intro l
  induction l with
  | nil => intro _; simp [resolveAll]
  | cons kv0 rest ih =>
    intro h
    have h0 : noUnresolved kv0.2 = true := h kv0 (List.mem_cons_self kv0 rest)
    have hrest := ih (fun kv hkv => h kv (List.mem_cons_of_mem kv0 hkv))
    have he : resolveEntry env2 kv0 = .ok kv0 := by
      simp only [resolveEntry]
      rw [resolveValue_id env2 _ kv0.2 h0]
    simp [resolveAll, he, hrest]

/-- Resolving a permuted worklist against the same lookup tree succeeds on a
permutation of the original result: the resolution of each entry depends only on
the tree and the entry, not on the processing order. -/
theorem resolveAll_perm (env : List (Key × ParsedValue)) :
    ∀ (l1 l2 r1 : List (Key × ParsedValue)), List.Perm l1 l2 →
      resolveAll env l1 = .ok r1 →
      ∃ r2, resolveAll env l2 = .ok r2 ∧ List.Perm r1 r2 := by
  intro l1 l2 r1 hp
  induction hp generalizing r1 with
  | nil =>
    intro h
    simp [resolveAll] at h
    exact ⟨[], by simp [resolveAll], by rw [← h]⟩
  | cons x hpe ih =>
    rename_i la lb
    intro h
    simp only [resolveAll] at h
    cases he : resolveEntry env x with
    | error e => rw [he] at h; cases h
    | ok x2 =>
      rw [he] at h
      cases ht : resolveAll env la with
      | error e => rw [ht] at h; cases h
      | ok t1 =>
        rw [ht] at h
        cases h
        obtain ⟨t2, ht2, hpt⟩ := ih t1 ht
        exact ⟨x2 :: t2, by simp [resolveAll, he, ht2], List.Perm.cons x2 hpt⟩
  | swap x y l =>
    intro h
    simp only [resolveAll] at h
    cases hy : resolveEntry env y with
    | error e => rw [hy] at h; cases h
    | ok y2 =>
      rw [hy] at h
      cases hx : resolveEntry env x with
      | error e => rw [hx] at h; cases h
      | ok x2 =>
        rw [hx] at h
        cases ht : resolveAll env l with
        | error e => rw [ht] at h; cases h
        | ok t1 =>
          rw [ht] at h
          cases h
          refine ⟨x2 :: y2 :: t1, ?_, List.Perm.swap x2 y2 t1⟩
          simp [resolveAll, hx, hy, ht]
  | trans hp1 hp2 ih1 ih2 =>
    intro h
    obtain ⟨r2, h2, hp12⟩ := ih1 r1 h
    obtain ⟨r3, h3, hp23⟩ := ih2 r2 h2
    exact ⟨r3, h3, List.Perm.trans hp12 hp23⟩

/-- C3: foreign-key resolution is idempotent — when the global pass succeeds,
running it again on the already-resolved trees succeeds and changes nothing
(already-resolved nodes are no-ops) — and the processing order of the entries is
irrelevant: resolving any permutation of the entries against the same lookup
tree succeeds on the corresponding permutation of the resolved entries. -/
theorem resolve_foreign_keys_idempotent (env env2 : List (Key × ParsedValue))
    (h : ParsedValue.resolve_foreign_keys env = .ok env2) :
    ParsedValue.resolve_foreign_keys env2 = .ok env2
    ∧ ∀ envp, List.Perm env envp →
        ∃ r, resolveAll env envp = .ok r ∧ List.Perm env2 r := by
  constructor
  · exact resolveAll_id env2 env2 (resolveAll_noUnresolved env env env2 h)
  · intro envp hp
    exact resolveAll_perm env env envp env2 hp h

/-- Witness for C3: a two-entry tree with one resolvable reference; the resolved
tree re-resolves to itself. -/
theorem resolve_foreign_keys_idempotent_witness :
    ParsedValue.resolve_foreign_keys
      [(⟨"b", "b"⟩, .string "x"),
       (⟨"a", "a"⟩, .foreignKeyResolved ⟨"b", "b"⟩ (.string "x"))]
      = .ok [(⟨"b", "b"⟩, .string "x"),
             (⟨"a", "a"⟩, .foreignKeyResolved ⟨"b", "b"⟩ (.string "x"))] := by
  have h : ParsedValue.resolve_foreign_keys
      [(⟨"b", "b"⟩, .string "x"), (⟨"a", "a"⟩, .foreignKeyUnresolved ⟨"b", "b"⟩)]
      = .ok [(⟨"b", "b"⟩, .string "x"),
             (⟨"a", "a"⟩, .foreignKeyResolved ⟨"b", "b"⟩ (.string "x"))] := by
    simp [ParsedValue.resolve_foreign_keys, resolveAll, resolveEntry, resolveValue,
      lookupValue, List.erase_cons]
  exact (resolve_foreign_keys_idempotent _ _ h).1

/-- C4: on a tree whose two entries reference each other (key `a` references key
`b` and key `b` references key `a`), the resolution pass terminates (it is a
total function) and reports the `ForeignKeyCycle` error rather than producing a
value. -/
theorem cycle_of_length_two_detected (a b : Key) (hab : a.name ≠ b.name) :
    ParsedValue.resolve_foreign_keys
      [(a, .foreignKeyUnresolved b), (b, .foreignKeyUnresolved a)]
      = .error (.ForeignKeyCycle a.name) := by
  have h1 : (a.name == b.name) = false := beq_eq_false_iff_ne.mpr hab
  have h2 : (b.name == a.name) = false := beq_eq_false_iff_ne.mpr (Ne.symm hab)
  simp [ParsedValue.resolve_foreign_keys, resolveAll, resolveEntry, resolveValue,
    lookupValue, List.erase_cons, h1, h2]

/-- Witness for C4 at two concrete mutually referencing keys. -/
theorem cycle_of_length_two_detected_witness :
    ParsedValue.resolve_foreign_keys
      [(⟨"a", "a"⟩, .foreignKeyUnresolved ⟨"b", "b"⟩),
       (⟨"b", "b"⟩, .foreignKeyUnresolved ⟨"a", "a"⟩)]
      = .error (.ForeignKeyCycle "a") :=
  cycle_of_length_two_detected ⟨"a", "a"⟩ ⟨"b", "b"⟩ (by decide)

/- ## Code generation models (`load_locales/mod.rs`) -/

/-- Modelled from the spec: `KeyPath` (declared in a module not available here) —
the nesting path to a value, an ordered sequence of keys optionally headed by a
namespace key. -/
structure KeyPath where
  ns : Option Key
  path : List Key
deriving Repr, DecidableEq

/-- Modelled from the spec: `KeyPath::to_string_with_key`, the path string of a
leaf used by the debug mode — the namespace (when present), the nesting keys and
the leaf key, joined into one string. -/
def KeyPath.to_string_with_key (kp : KeyPath) (k : Key) : String :=
  String.intercalate "." ((kp.ns.toList ++ kp.path ++ [k]).map Key.name)

/-- Modelled from the spec: `ParsedValue::is_string`, the projection returning
the text of a plain string leaf and nothing for every other variant. -/
def ParsedValue.is_string : ParsedValue → Option String
  | .string s => some s
  | _ => none

/-- Non-fatal discrepancies recorded by the merge pass. -/
inductive Warning : Type where
  | MissingKey : Key → String → Warning
  | SurplusKey : Key → String → Warning
deriving Repr, DecidableEq

/-- Embeds `filled_string_fields` of `create_locale_type_inner`
(`load_locales/mod.rs`): the value generated for one plain-string key of one
locale. With the `show_keys_only` feature the value is the key-path string of
the key; otherwise the value of the locale when it is a plain string, and the
default locale value through `ParsedValue::is_string` in every other case (the
field is omitted when that also fails, hence the `Option`). -/
def filled_string_field (showKeysOnly : Bool) (keyPath : KeyPath)
    (localeKeys defaultKeys : List (Key × ParsedValue)) (key : Key) :
    Option String :=
  if showKeysOnly then some (keyPath.to_string_with_key key)
  else
    match lookupValue localeKeys key.name with
    | some (.string s) => some s
    | _ => (lookupValue defaultKeys key.name).bind ParsedValue.is_string

/-- Embeds `get_default_match` (`load_locales/mod.rs`): the set of locale
variants covered by the default match arm — the default locale plus every
top-level locale that does not appear in the current subtree slice. -/
def get_default_match (defaultLocale : Key) (topLocales : List Key)
    (currentLocales : List Key) : List Key :=
  defaultLocale ::
    topLocales.filter (fun l => !(currentLocales.any (fun c => c.name == l.name)))

/-- A locale is matched by a generated match arm when the arm covers a variant
of its name. -/
def matchesArm (arm : List Key) (l : Key) : Bool :=
  arm.any (fun k => k.name == l.name)

/-- Modelled from the spec: the merge step of `Locale::merge` (`locale.rs`, not
available here) for one key whose merged shape is a plain string — a locale that
lacks the key falls back to the reduced default-locale value and records exactly
one missing-key warning; a locale defining it as a plain string keeps its own
text with no warning; any other shape is the hard key-type-mismatch error. -/
def mergeStringKey (locale : Key) (path : String) (defaultValue : String) :
    Option ParsedValue → Except Error (String × List Warning)
  | none => .ok (defaultValue, [.MissingKey locale path])
  | some v =>
    match v.is_string with
    | some s => .ok (s, [])
    | none => .error (.LocaleKeyTypeMismatch path)

/-- C5: for a key of plain-string merged shape that a non-default locale does
not define as a string, the generated accessor value for that locale is the
default locale value of the key, the merge of the missing key records exactly
one missing-key warning for that locale, and a locale absent from a subtree
slice is covered by the same match arm as the default locale. -/
theorem missing_key_fallback (kp : KeyPath)
    (localeKeys defaultKeys : List (Key × ParsedValue)) (key : Key) (dv : String)
    (locale defaultLocale : Key) (topLocales currentLocales : List Key)
    (hloc : (lookupValue localeKeys key.name).bind ParsedValue.is_string = none)
    (hdef : lookupValue defaultKeys key.name = some (.string dv))
    (hmem : locale ∈ topLocales)
    (habs : currentLocales.any (fun c => c.name == locale.name) = false) :
    filled_string_field false kp localeKeys defaultKeys key = some dv
    ∧ mergeStringKey locale (kp.to_string_with_key key) dv none
        = .ok (dv, [Warning.MissingKey locale (kp.to_string_with_key key)])
    ∧ matchesArm (get_default_match defaultLocale topLocales currentLocales) locale
        = true := by
  refine ⟨?_, rfl, ?_⟩
  · simp only [filled_string_field, Bool.false_eq_true, if_false]
    cases hl : lookupValue localeKeys key.name with
    | none => simp [hdef, ParsedValue.is_string]
    | some pv =>
      rw [hl] at hloc
      cases pv <;> simp_all [ParsedValue.is_string, hdef]
  · simp only [matchesArm, get_default_match]
    apply List.any_eq_true.mpr
    refine ⟨locale, ?_, by simp⟩
    apply List.mem_cons_of_mem
    exact List.mem_filter.mpr ⟨hmem, by simp [habs]⟩

/-- Witness for C5: key `k` is a plain string "hello" in the default locale,
locale `fr` does not define it, and `fr` is absent from the current subtree
slice. -/
theorem missing_key_fallback_witness :
    filled_string_field false ⟨none, []⟩ []
        [(⟨"k", "k"⟩, .string "hello")] ⟨"k", "k"⟩ = some "hello"
    ∧ mergeStringKey ⟨"fr", "fr"⟩
        (KeyPath.to_string_with_key ⟨none, []⟩ ⟨"k", "k"⟩) "hello" none
        = .ok ("hello",
               [Warning.MissingKey ⟨"fr", "fr"⟩
                 (KeyPath.to_string_with_key ⟨none, []⟩ ⟨"k", "k"⟩)])
    ∧ matchesArm
        (get_default_match ⟨"en", "en"⟩ [⟨"en", "en"⟩, ⟨"fr", "fr"⟩] [⟨"en", "en"⟩])
        ⟨"fr", "fr"⟩ = true :=
  missing_key_fallback ⟨none, []⟩ [] [(⟨"k", "k"⟩, .string "hello")] ⟨"k", "k"⟩
    "hello" ⟨"fr", "fr"⟩ ⟨"en", "en"⟩ [⟨"en", "en"⟩, ⟨"fr", "fr"⟩] [⟨"en", "en"⟩]
    (by simp [lookupValue]) (by simp [lookupValue]) (by decide) (by decide)

/-- C8: with the `show_keys_only` debug feature enabled, the generated value of
every plain-string key of every locale is the key-path string of the key itself,
whatever any locale tree holds for it. -/
theorem show_keys_only_fills_path (kp : KeyPath)
    (localeKeys defaultKeys : List (Key × ParsedValue)) (key : Key) :
    filled_string_field true kp localeKeys defaultKeys key
      = some (kp.to_string_with_key key) := by
  simp [filled_string_field]

/-- A match arm pattern of the generated `new` constructor: either the default
arm produced by `get_default_match` or the single variant of one locale. -/
inductive MatchPattern : Type where
  | defaultArm : List Key → MatchPattern
  | variant : String → MatchPattern
deriving Repr, DecidableEq

/-- Embeds the arm construction of `new_match_arms` in `create_locale_type_inner`
(`load_locales/mod.rs`): `locales.first().unwrap()` panics on an empty slice
(modelled as `none`); otherwise the arm at index 0 carries the default match
pattern and the arm at every other index carries the single variant of that
locale. -/
def new_match_arm_patterns (defaultMatch : MatchPattern) (locales : List Key) :
    Option (List MatchPattern) :=
  match locales with
  | [] => none
  | _ :: rest => some (defaultMatch :: rest.map (fun l => .variant l.name))

/-- C9: `create_locale_type_inner` requires a non-empty locales slice headed by
the default locale — an empty slice panics on `locales.first().unwrap()` — and
the generated constructor match puts the default-plus-missing-locales pattern at
index 0 and a single-variant pattern at every other index. -/
theorem create_locale_type_inner_match_arms (dm : MatchPattern) (fst : Key)
    (rest : List Key) :
    new_match_arm_patterns dm [] = none
    ∧ new_match_arm_patterns dm (fst :: rest)
        = some (dm :: rest.map (fun l => MatchPattern.variant l.name))
    ∧ (dm :: rest.map (fun l => MatchPattern.variant l.name)).length
        = (fst :: rest).length
    ∧ (dm :: rest.map (fun l => MatchPattern.variant l.name)).head? = some dm
    ∧ ∀ i (hi : i + 1 < (fst :: rest).length),
        (dm :: rest.map (fun l => MatchPattern.variant l.name)).get? (i + 1)
          = some (.variant (((fst :: rest).get ⟨i + 1, hi⟩).name)) := by
  refine ⟨rfl, rfl, by simp, rfl, ?_⟩
  intro i hi
  have hi2 : i < rest.length := by simpa using hi
  simp only [List.get?_eq_getElem?, List.getElem?_cons_succ, List.getElem?_map,
    List.get_eq_getElem, List.getElem_cons_succ]
  rw [List.getElem?_eq_getElem hi2]
  simp

/-- Witness for C9 at a concrete two-locale slice. -/
theorem create_locale_type_inner_match_arms_witness :
    new_match_arm_patterns (.defaultArm [⟨"en", "en"⟩]) [] = none
    ∧ new_match_arm_patterns (.defaultArm [⟨"en", "en"⟩]) [⟨"en", "en"⟩, ⟨"fr", "fr"⟩]
        = some [.defaultArm [⟨"en", "en"⟩], .variant "fr"]
    ∧ [MatchPattern.defaultArm [⟨"en", "en"⟩], MatchPattern.variant "fr"].get? 1
        = some (.variant "fr") := by
  have h := create_locale_type_inner_match_arms (.defaultArm [⟨"en", "en"⟩])
    ⟨"en", "en"⟩ [⟨"fr", "fr"⟩]
  exact ⟨h.1, h.2.1, h.2.2.2.2 0 (by decide)⟩

/- ## The generated locale enum (`create_locales_enum`) -/

/-- Embeds `as_str` of the generated `Locale` enum (`create_locales_enum` in
`load_locales/mod.rs`): each variant — modelled by its index into the configured
locales — maps to the name of its locale key. -/
def as_str (locales : List Key) (i : Fin locales.length) : String :=
  (locales.get i).name

/-- Embeds `from_str` of the generated `Locale` enum: the input is trimmed and
matched against the locale names in declaration order; the first matching arm
returns its variant, the wildcard arm returns nothing. -/
def from_str (locales : List Key) (s : String) : Option Nat :=
  locales.findIdx? (fun k => k.name == trimString s)

/-- In a list of keys with pairwise distinct names, searching for the name of
the key at index `i` finds exactly index `i`. -/
theorem findIdx_name_get (l : List Key) (hnd : (l.map Key.name).Nodup) (i : Nat)
    (hi : i < l.length) :
    l.findIdx? (fun k => k.name == (l.get ⟨i, hi⟩).name) = some i := by
  induction l generalizing i with
  | nil => exact absurd hi (Nat.not_lt_zero i)
  | cons x t ih =>
    have hndc : (Key.name x :: t.map Key.name).Nodup := by
      simpa only [List.map_cons] using hnd
    have hnd2 := List.nodup_cons.mp hndc
    cases i with
    | zero => simp
    | succ j =>
      have hj : j < t.length := by simpa using hi
      have hmem : (t.get ⟨j, hj⟩).name ∈ t.map Key.name :=
        List.mem_map_of_mem Key.name (List.get_mem t j hj)
      have hne : (x.name == ((x :: t).get ⟨j + 1, hi⟩).name) = false := by
        rw [List.get_cons_succ]
        exact beq_eq_false_iff_ne.mpr (fun heq => hnd2.1 (heq ▸ hmem))
      rw [List.findIdx?_cons, hne]
      simp only [if_false, List.findIdx?_start_succ, Bool.false_eq_true]
      rw [List.get_cons_succ]
      rw [ih hnd2.2 j hj]
      simp

/-- C10: the generated `as_str` and `from_str` round-trip — for every configured
locale variant, `from_str (as_str v) = Some v` (locale names are trimmed key
names and are pairwise distinct in a valid configuration) — and `from_str`
matches the trimmed input against the configured names, returning `None` exactly
when the trimmed input is not a configured locale name. -/
theorem locale_enum_round_trip (locales : List Key)
    (hnd : (locales.map Key.name).Nodup)
    (htrim : ∀ k ∈ locales, trimString k.name = k.name)
    (i : Fin locales.length) :
    from_str locales (as_str locales i) = some i.val
    ∧ ∀ s : String,
        from_str locales s = none ↔ trimString s ∉ locales.map Key.name := by
  constructor
  · have ht : trimString ((locales.get i).name) = (locales.get i).name :=
      htrim _ (List.get_mem locales i.val i.isLt)
    simp only [from_str, as_str, ht]
    exact findIdx_name_get locales hnd i.val i.isLt
  · intro s
    rw [from_str, List.findIdx?_eq_none_iff]
    constructor
    · intro h hmem
      obtain ⟨k, hk, hkname⟩ := List.mem_map.mp hmem
      have := h k hk
      rw [hkname] at this
      simp at this
    · intro h k hk
      apply beq_eq_false_iff_ne.mpr
      intro heq
      exact h (List.mem_map.mpr ⟨k, hk, heq⟩)

/-- Witness for C10 at the concrete configuration `[en, fr]`: the round trip at
variant index 1 and a non-locale input. -/
theorem locale_enum_round_trip_witness :
    from_str [⟨"en", "en"⟩, ⟨"fr", "fr"⟩] "fr" = some 1
    ∧ from_str [⟨"en", "en"⟩, ⟨"fr", "fr"⟩] " de " = none := by
  have h := locale_enum_round_trip [⟨"en", "en"⟩, ⟨"fr", "fr"⟩] (by decide)
    (by decide) ⟨1, by decide⟩
  exact ⟨h.1, (h.2 " de ").mpr (by decide)⟩
